import Mathlib

/-!
Verification of the text-normalization and metadata-encoding helpers of
`spr` (`src/spr/src/utils.rs`): `slugify`, `parse_name_list`,
`parse_pr_stack_list`, `run_command` and `get_pr_stack`.

Strings are modelled as their lists of characters (`String.data`).
External collaborators (the unicode-normalization crate, the `message`
module's encoder, the git accessor, the process environment) are modelled
as explicit parameters or, where the spec fixes their behaviour, as
definitions marked `Modelled from the spec:`.
-/

namespace Spr

/-- The Unicode `White_Space` property, the set used by Rust's
`char::is_whitespace`, `str::trim` and `str::split_whitespace`. -/
def rustIsWhitespace (c : Char) : Bool :=
  (9 ≤ c.toNat && c.toNat ≤ 13) || c.toNat = 32 || c.toNat = 133 ||
  c.toNat = 160 || c.toNat = 0x1680 ||
  (0x2000 ≤ c.toNat && c.toNat ≤ 0x200A) || c.toNat = 0x2028 ||
  c.toNat = 0x2029 || c.toNat = 0x202F || c.toNat = 0x205F ||
  c.toNat = 0x3000

/-- Rust `char::is_ascii_uppercase`. -/
def isAsciiUppercase (c : Char) : Bool := 65 ≤ c.toNat && c.toNat ≤ 90

/-- Rust `char::is_ascii_lowercase`. -/
def isAsciiLowercase (c : Char) : Bool := 97 ≤ c.toNat && c.toNat ≤ 122

/-- Rust `char::is_ascii_digit`. -/
def isAsciiDigit (c : Char) : Bool := 48 ≤ c.toNat && c.toNat ≤ 57

/-- Rust `char::is_ascii_alphanumeric`. -/
def isAsciiAlphanumeric (c : Char) : Bool :=
  isAsciiUppercase c || isAsciiLowercase c || isAsciiDigit c

/-- Rust `char::to_ascii_lowercase`: shift `A`-`Z` down by 32, leave
everything else alone. -/
def toAsciiLower (c : Char) : Char :=
  if isAsciiUppercase c then Char.ofNat (c.toNat + 32) else c

/-- The character filter of `slugify`:
`c.is_ascii_alphanumeric() || c == '_' || c == '-'`. -/
def isKeepChar (c : Char) : Bool :=
  isAsciiAlphanumeric c || c = '_' || c = '-'

/-- Characters allowed in a finished slug: ASCII lowercase letters,
digits, underscore and hyphen. -/
def isSlugChar (c : Char) : Bool :=
  isAsciiLowercase c || isAsciiDigit c || c = '_' || c = '-'

/-- No two consecutive hyphens anywhere in the list. -/
def noAdjacentHyphens : List Char → Bool
  | c :: d :: rest => !(c = '-' && d = '-') && noAdjacentHyphens (d :: rest)
  | _ => true

/-- Rust `str::trim` on the character list: drop Unicode whitespace from
both ends. -/
def trimChars (l : List Char) : List Char :=
  List.rdropWhile rustIsWhitespace (List.dropWhile rustIsWhitespace l)

/-- The `scan`/`flatten` stage of `slugify`: drop every `'-'` whose
previously emitted character was also `'-'`. `last` is the scan state
(the previously emitted character, if any). -/
def collapseHyphens (last : Option Char) : List Char → List Char
  | [] => []
  | c :: rest =>
    if c = '-' ∧ last = some '-' then collapseHyphens last rest
    else c :: collapseHyphens (some c) rest

/-- `slugify` on character lists, parameterized by the external
unicode-normalization collaborator `nfd` (Rust `str::nfd()`, canonical
decomposition): trim, decompose, map whitespace to hyphens, keep only
ASCII alphanumerics / underscore / hyphen, lowercase, collapse hyphen
runs. -/
def slugifyChars (nfd : List Char → List Char) (l : List Char) : List Char :=
  collapseHyphens none
    ((((nfd (trimChars l)).map
        (fun c => if rustIsWhitespace c then '-' else c)).filter
        isKeepChar).map toAsciiLower)

/-- `slugify` from `utils.rs`, with the unicode-normalization
collaborator passed explicitly. -/
def slugify (nfd : List Char → List Char) (s : String) : String :=
  ⟨slugifyChars nfd s.data⟩

/-- Per-character Unicode canonical decomposition (NFD), restricted to
the characters exercised here; every other character decomposes to
itself. This models the external `unicode_normalization` crate's `nfd()`
for the inputs of interest. Canonical reordering is omitted: it only
permutes combining marks, all of which are non-ASCII and removed by the
ASCII filter of `slugify`. -/
def nfdChar (c : Char) : List Char :=
  if c = 'ĥ' then ['h', '\u0302']
  else if c = 'ê' then ['e', '\u0302']
  else if c = 'ļ' then ['l', '\u0327']
  else if c = 'ō' then ['o', '\u0304']
  else if c = 'ŵ' then ['w', '\u0302']
  else if c = 'ö' then ['o', '\u0308']
  else if c = 'ř' then ['r', '\u030C']
  else if c = 'ľ' then ['l', '\u030C']
  else if c = 'ď' then ['d', '\u030C']
  else [c]

/-- Reference instantiation of the unicode-normalization collaborator:
per-character canonical decomposition. -/
def nfdRef (l : List Char) : List Char := l.flatMap nfdChar

/-- Value of an ASCII digit character. -/
def digitVal (c : Char) : Nat := c.toNat - 48

/-- Decimal value of a digit string, most significant digit first. -/
def digitsToNat (l : List Char) : Nat :=
  l.foldl (fun acc c => acc * 10 + digitVal c) 0

/-- The digit character for `d < 10` (`d ≥ 9` yields `'9'`; it is only
applied to `_ % 10`). -/
def digitChar (d : Nat) : Char :=
  match d with
  | 0 => '0' | 1 => '1' | 2 => '2' | 3 => '3' | 4 => '4'
  | 5 => '5' | 6 => '6' | 7 => '7' | 8 => '8' | _ => '9'

/-- Decimal digits of `n`, most significant first: Rust's `Display` for
unsigned integers. -/
def natDigits (n : Nat) : List Char :=
  if _h : n < 10 then [digitChar n]
  else natDigits (n / 10) ++ [digitChar (n % 10)]
  termination_by n
  decreasing_by exact Nat.div_lt_self (by omega) (by omega)

/-- Core of Rust `str::parse::<u64>()` after sign handling: the string
must be a non-empty run of ASCII digits whose value fits in 64 bits. -/
def parseDigits (l : List Char) : Option Nat :=
  if l ≠ [] ∧ l.all isAsciiDigit then
    if digitsToNat l < 2 ^ 64 then some (digitsToNat l) else none
  else none

/-- Rust `str::parse::<u64>()`: an optional leading `'+'`, then a
non-empty run of ASCII digits; overflow past `u64::MAX` is an error, as
is a leading `'-'` or any other character. -/
def parseU64 (l : List Char) : Option Nat :=
  match l with
  | [] => parseDigits []
  | c :: rest => if c = '+' then parseDigits rest else parseDigits (c :: rest)

/-- Rust `str::split_whitespace().next()`: skip leading Unicode
whitespace; `none` on an all-whitespace string, otherwise the first
maximal run of non-whitespace characters. -/
def firstWhitespaceToken (l : List Char) : Option (List Char) :=
  match l.dropWhile rustIsWhitespace with
  | [] => none
  | c :: rest => some ((c :: rest).takeWhile (fun x => !rustIsWhitespace x))

/-- Strip one trailing `'\r'`, as Rust `str::lines` does on each segment
that was terminated by `'\n'`. -/
def stripTrailingCR (l : List Char) : List Char :=
  if l.getLast? = some '\r' then l.dropLast else l

/-- Rust `str::lines`: split on `'\n'`, strip a single `'\r'` at the end
of every terminated segment, and drop the empty segment after a trailing
newline. -/
def rustLines (l : List Char) : List (List Char) :=
  let parts := l.splitOn '\n'
  let init := parts.dropLast.map stripTrailingCR
  if parts.getLastD [] = [] then init else init ++ [parts.getLastD []]

/-- The per-line body of `parse_pr_stack_list`: first whitespace-delimited
token, the segment after its last `'/'` (Rust `url.split('/').last()`,
which is always `Some` and is modelled by `getLastD`), parsed as `u64`. -/
def extractPrNumber (line : List Char) : Option Nat :=
  match firstWhitespaceToken line with
  | none => none
  | some url => parseU64 ((url.splitOn '/').getLastD [])

/-- `parse_pr_stack_list` from `utils.rs`. -/
def parse_pr_stack_list (text : String) : List Nat :=
  (rustLines text.data).filterMap extractPrNumber

/-- Whether a `')'` is reachable without crossing a `'\n'`: regex `.`
does not match `'\n'`, so a lazy `\(.*?\)` match starting at a `'('`
exists exactly when this holds of the remainder. -/
def hasClose : List Char → Bool
  | [] => false
  | c :: rest =>
    if c = ')' then true else if c = '\n' then false else hasClose rest

mutual

/-- `lazy_regex::regex!(r"\(.*?\)").replace_all(text, ",")`: leftmost
matches of a lazily quantified parenthesized group — `'('`, then the
shortest run of non-newline characters up to the first `')'` — are each
replaced by a single `','`; a `'('` with no reachable `')'` is left in
place and scanning continues after it. -/
def removeParens : List Char → List Char
  | [] => []
  | c :: rest =>
    if c = '(' && hasClose rest then ',' :: skipClose rest
    else c :: removeParens rest

/-- Discard a lazy match body: everything up to and including the first
`')'`, then resume `removeParens`. -/
def skipClose : List Char → List Char
  | [] => []
  | c :: rest => if c = ')' then removeParens rest else skipClose rest

end

/-- `parse_name_list` from `utils.rs`: replace parenthesized groups by
commas, split on commas, trim each piece, drop empties. -/
def parse_name_list (text : String) : List String :=
  ((((removeParens text.data).splitOn ',').map trimChars).filter
    (fun l => !l.isEmpty)).map (fun l => (⟨l⟩ : String))

/-- The error type of the crate (`error.rs` is outside this slice); all
uses here construct it from a message, as `Error::new` does. -/
inductive Error where
  | new (msg : String) : Error
deriving DecidableEq

/-- Commit identifier (`git2::Oid`), abstract. -/
abbrev Oid := Nat

/-- The git collaborator, reduced to the single method `get_pr_stack`
calls. -/
structure Git where
  parse_pr_stack_from_commit : Oid → Except Error (List Nat)

/-- The configuration collaborator: repository owner and name. -/
structure Config where
  owner : String
  repo : String

/-- The URL rendered for one stack entry:
`https://github.com/<owner>/<repo>/pull/<number>`. -/
def prUrl (owner repo : String) (n : Nat) : List Char :=
  "https://github.com/".data ++ owner.data ++ "/".data ++ repo.data ++
    "/pull/".data ++ natDigits n

/-- Modelled from the spec: `build_pr_stack_message` lives in the
`message` module, which is outside this slice. Per §4.3 it renders one
line per number as `https://<host>/<owner>/<repo>/pull/<number>`, in the
given order, annotating the first line (the current PR) distinctly from
the ancestor lines; the decoration shown in the `utils.rs` doc comment is
`" <-- (current PR)"`. -/
def build_pr_stack_message (numbers : List Nat) (owner repo : String) : String :=
  match numbers with
  | [] => ""
  | first :: rest =>
    ⟨List.intercalate ['\n']
      ((prUrl owner repo first ++ " <-- (current PR)".data) ::
        rest.map (prUrl owner repo))⟩

/-- `get_pr_stack` from `utils.rs`. -/
def get_pr_stack (git : Git) (config : Config) (pull_request_number : Nat)
    (parent_oid : Oid) (cherry_pick : Bool) (directly_based_on_master : Bool) :
    Except Error String :=
  if cherry_pick || directly_based_on_master then
    .ok (build_pr_stack_message [pull_request_number] config.owner config.repo)
  else
    match git.parse_pr_stack_from_commit parent_oid with
    | .error e => .error e
    | .ok pr_stack =>
      .ok (build_pr_stack_message (pull_request_number :: pr_stack)
        config.owner config.repo)

/-- Exit status and captured standard-error bytes of a finished process
(Rust `std::process::Output`, with `status.success()` precomputed). -/
structure CmdOutput where
  success : Bool
  stderr : List Nat

/-- `run_command` from `utils.rs`, with the process environment injected:
`spawn` is the result of `cmd.spawn()`, `wait` of
`child.wait_with_output().await`. The first component of the result is
the byte sequence written to the diagnostic stream
(`console::Term::stderr()`); the second is the returned `Result`. -/
def run_command (Child : Type) (spawn : Except Error Child)
    (wait : Child → Except Error CmdOutput) : List Nat × Except Error Unit :=
  match spawn with
  | .error e => ([], .error e)
  | .ok child =>
    match wait child with
    | .error e => ([], .error e)
    | .ok out =>
      if out.success then ([], .ok ())
      else (out.stderr, .error (Error.new "command failed"))

/-- Text consisting only of whitespace, commas, and parenthesized
content: the inputs that `parse_name_list` maps to the empty list. A
parenthesized group is one the `\(.*?\)` regex matches: its body contains
no `')'` and no `'\n'`. -/
inductive FillerOnly : List Char → Prop where
  | nil : FillerOnly []
  | comma {rest : List Char} : FillerOnly rest → FillerOnly (',' :: rest)
  | white {c : Char} {rest : List Char} : rustIsWhitespace c = true →
      FillerOnly rest → FillerOnly (c :: rest)
  | paren (inner : List Char) {rest : List Char} :
      (∀ x ∈ inner, x ≠ ')' ∧ x ≠ '\n') → FillerOnly rest →
      FillerOnly ('(' :: inner ++ ')' :: rest)

/-! ## Character-level lemmas -/

theorem char_eq_of_toNat {c d : Char} (h : c.toNat = d.toNat) : c = d :=
  Char.ext (UInt32.ext h)

theorem toNat_charOfNat {m : Nat} (h : m < 55296) : (Char.ofNat m).toNat = m := by
  have hv : m.isValidChar := Or.inl h
  rw [Char.ofNat, dif_pos hv]
  show (UInt32.ofNat' m _).toNat = m
  rw [UInt32.ofNat']
  simp [UInt32.toNat]

theorem isAsciiUppercase_iff {c : Char} :
    isAsciiUppercase c = true ↔ 65 ≤ c.toNat ∧ c.toNat ≤ 90 := by
  simp [isAsciiUppercase]

theorem slug_toNat {c : Char} (h : isSlugChar c = true) :
    (97 ≤ c.toNat ∧ c.toNat ≤ 122) ∨ (48 ≤ c.toNat ∧ c.toNat ≤ 57) ∨
    c.toNat = 95 ∨ c.toNat = 45 := by
  simp only [isSlugChar, isAsciiLowercase, isAsciiDigit, Bool.or_eq_true,
    Bool.and_eq_true, decide_eq_true_eq] at h
  rcases h with ((h | h) | h) | h
  · exact Or.inl h
  · exact Or.inr (Or.inl h)
  · subst h; exact Or.inr (Or.inr (Or.inl rfl))
  · subst h; exact Or.inr (Or.inr (Or.inr rfl))

theorem ws_toNat {c : Char} (h : rustIsWhitespace c = true) :
    (9 ≤ c.toNat ∧ c.toNat ≤ 13) ∨ c.toNat = 32 ∨ c.toNat = 133 ∨
    c.toNat = 160 ∨ c.toNat = 5760 ∨ (8192 ≤ c.toNat ∧ c.toNat ≤ 8202) ∨
    c.toNat = 8232 ∨ c.toNat = 8233 ∨ c.toNat = 8239 ∨ c.toNat = 8287 ∨
    c.toNat = 12288 := by
  simp only [rustIsWhitespace, Bool.or_eq_true, Bool.and_eq_true,
    decide_eq_true_eq] at h
  omega

theorem ws_false_of_slug {c : Char} (h : isSlugChar c = true) :
    rustIsWhitespace c = false := by
  cases hws : rustIsWhitespace c with
  | false => rfl
  | true => exact absurd (slug_toNat h) (by have := ws_toNat hws; omega)

theorem not_upper_of_slug {c : Char} (h : isSlugChar c = true) :
    isAsciiUppercase c = false := by
  cases hu : isAsciiUppercase c with
  | false => rfl
  | true => exact absurd (slug_toNat h) (by have := isAsciiUppercase_iff.mp hu; omega)

theorem keep_of_slug {c : Char} (h : isSlugChar c = true) :
    isKeepChar c = true := by
  simp only [isSlugChar, Bool.or_eq_true] at h
  simp only [isKeepChar, isAsciiAlphanumeric, Bool.or_eq_true]
  rcases h with ((h | h) | h) | h
  · exact Or.inl (Or.inl (Or.inl (Or.inr h)))
  · exact Or.inl (Or.inl (Or.inr h))
  · exact Or.inl (Or.inr h)
  · exact Or.inr h

theorem toAsciiLower_of_upper {c : Char} (h : isAsciiUppercase c = true) :
    (toAsciiLower c).toNat = c.toNat + 32 := by
  rw [toAsciiLower, if_pos h]
  exact toNat_charOfNat (by have := isAsciiUppercase_iff.mp h; omega)

theorem toAsciiLower_of_not_upper {c : Char} (h : isAsciiUppercase c = false) :
    toAsciiLower c = c := by
  rw [toAsciiLower, h]; rfl

theorem slugChar_of_keep {c : Char} (h : isKeepChar c = true) :
    isSlugChar (toAsciiLower c) = true := by
  simp only [isKeepChar, isAsciiAlphanumeric, Bool.or_eq_true,
    decide_eq_true_eq] at h
  rcases h with (((hu | hl) | hd) | he) | he
  · have ht := toAsciiLower_of_upper hu
    have hr := isAsciiUppercase_iff.mp hu
    simp only [isSlugChar, isAsciiLowercase, isAsciiDigit, Bool.or_eq_true,
      Bool.and_eq_true, decide_eq_true_eq]
    left; omega
  · have hnu : isAsciiUppercase c = false := by
      cases hu : isAsciiUppercase c with
      | false => rfl
      | true =>
        exfalso
        have := isAsciiUppercase_iff.mp hu
        simp only [isAsciiLowercase, Bool.and_eq_true, decide_eq_true_eq] at hl
        omega
    rw [toAsciiLower_of_not_upper hnu]
    simp only [isSlugChar, Bool.or_eq_true]
    exact Or.inl (Or.inl (Or.inl hl))
  · have hnu : isAsciiUppercase c = false := by
      cases hu : isAsciiUppercase c with
      | false => rfl
      | true =>
        exfalso
        have := isAsciiUppercase_iff.mp hu
        simp only [isAsciiDigit, Bool.and_eq_true, decide_eq_true_eq] at hd
        omega
    rw [toAsciiLower_of_not_upper hnu]
    simp only [isSlugChar, Bool.or_eq_true]
    exact Or.inl (Or.inl (Or.inr hd))
  · subst he; decide
  · subst he; decide

/-! ## List scanning lemmas -/

theorem dropWhile_all_append {p : Char → Bool} {w : List Char} (l : List Char)
    (h : ∀ c ∈ w, p c = true) : (w ++ l).dropWhile p = l.dropWhile p := by
  induction w with
  | nil => rfl
  | cons c w ih =>
    rw [List.cons_append, List.dropWhile_cons, if_pos (h c (by simp))]
    exact ih fun c hc => h c (by simp [hc])

theorem dropWhile_of_all_neg {p : Char → Bool} {l : List Char}
    (h : ∀ c ∈ l, p c = false) : l.dropWhile p = l := by
  cases l with
  | nil => rfl
  | cons c rest =>
    rw [List.dropWhile_cons, if_neg]
    simp [h c (by simp)]

theorem takeWhile_of_all {p : Char → Bool} {l : List Char}
    (h : ∀ c ∈ l, p c = true) : l.takeWhile p = l := by
  induction l with
  | nil => rfl
  | cons c rest ih =>
    rw [List.takeWhile_cons, if_pos (h c (by simp))]
    rw [ih fun c hc => h c (by simp [hc])]

theorem dropWhile_append_of_ne_nil {p : Char → Bool} {x : List Char}
    (y : List Char) (h : x.dropWhile p ≠ []) :
    (x ++ y).dropWhile p = x.dropWhile p ++ y := by
  induction x with
  | nil => exact absurd rfl h
  | cons c x ih =>
    by_cases hc : p c = true
    · rw [List.cons_append, List.dropWhile_cons, List.dropWhile_cons,
        if_pos hc, if_pos hc]
      rw [List.dropWhile_cons, if_pos hc] at h
      exact ih h
    · rw [List.cons_append, List.dropWhile_cons, List.dropWhile_cons,
        if_neg hc, if_neg hc, List.cons_append]

theorem rdropWhile_append_all {p : Char → Bool} {w : List Char} (l : List Char)
    (h : ∀ c ∈ w, p c = true) :
    List.rdropWhile p (l ++ w) = List.rdropWhile p l := by
  rw [List.rdropWhile, List.rdropWhile, List.reverse_append,
    dropWhile_all_append _ fun c hc => h c (List.mem_reverse.mp hc)]

theorem trimChars_pad {w₁ w₂ : List Char} (l : List Char)
    (h1 : ∀ c ∈ w₁, rustIsWhitespace c = true)
    (h2 : ∀ c ∈ w₂, rustIsWhitespace c = true) :
    trimChars (w₁ ++ l ++ w₂) = trimChars l := by
  unfold trimChars
  rw [List.append_assoc, dropWhile_all_append _ h1]
  by_cases h : l.dropWhile rustIsWhitespace = []
  · rw [dropWhile_all_append _ (List.dropWhile_eq_nil_iff.mp h), h]
    rw [List.dropWhile_eq_nil_iff.mpr h2]
  · rw [dropWhile_append_of_ne_nil _ h, rdropWhile_append_all _ h2]

theorem trimChars_of_no_ws {l : List Char}
    (h : ∀ c ∈ l, rustIsWhitespace c = false) : trimChars l = l := by
  rw [trimChars, dropWhile_of_all_neg h, List.rdropWhile,
    dropWhile_of_all_neg fun c hc => h c (List.mem_reverse.mp hc),
    List.reverse_reverse]

theorem trimChars_of_all_ws {l : List Char}
    (h : ∀ c ∈ l, rustIsWhitespace c = true) : trimChars l = [] := by
  rw [trimChars, List.dropWhile_eq_nil_iff.mpr h]
  rfl

/-! ## collapseHyphens lemmas -/

theorem mem_collapseHyphens {c : Char} :
    ∀ {l : List Char} {last : Option Char}, c ∈ collapseHyphens last l → c ∈ l := by
  intro l
  induction l with
  | nil => intro last h; exact absurd h (by simp [collapseHyphens])
  | cons d rest ih =>
    intro last h
    rw [collapseHyphens] at h
    split at h
    · exact List.mem_cons_of_mem _ (ih h)
    · rcases List.mem_cons.mp h with h | h
      · exact h ▸ List.mem_cons_self _ _
      · exact List.mem_cons_of_mem _ (ih h)

theorem noAdjacentHyphens_cons {c : Char} {l : List Char}
    (hl : noAdjacentHyphens l = true)
    (hc : ∀ d, l.head? = some d → ¬(c = '-' ∧ d = '-')) :
    noAdjacentHyphens (c :: l) = true := by
  cases l with
  | nil => rfl
  | cons d rest =>
    have hthis : ¬(c = '-' ∧ d = '-') := hc d rfl
    rw [noAdjacentHyphens]
    simp only [Bool.and_eq_true, Bool.not_eq_true']
    refine ⟨?_, hl⟩
    rw [Bool.and_eq_false_iff]
    by_cases h1 : c = '-'
    · right
      simp only [decide_eq_false_iff_not]
      exact fun h2 => hthis ⟨h1, h2⟩
    · left
      simp only [decide_eq_false_iff_not]
      exact h1

theorem noAdjacentHyphens_tail {c : Char} {l : List Char}
    (h : noAdjacentHyphens (c :: l) = true) : noAdjacentHyphens l = true := by
  cases l with
  | nil => rfl
  | cons d rest =>
    rw [noAdjacentHyphens, Bool.and_eq_true] at h
    exact h.2

theorem noAdjacentHyphens_head {c d : Char} {l : List Char}
    (h : noAdjacentHyphens (c :: d :: l) = true) : ¬(c = '-' ∧ d = '-') := by
  rw [noAdjacentHyphens, Bool.and_eq_true] at h
  intro ⟨h1, h2⟩
  subst h1; subst h2
  simpa using h.1

theorem collapseHyphens_sound (l : List Char) : ∀ last : Option Char,
    noAdjacentHyphens (collapseHyphens last l) = true ∧
    (last = some '-' → (collapseHyphens last l).head? ≠ some '-') := by
  induction l with
  | nil => intro last; exact ⟨rfl, by simp [collapseHyphens]⟩
  | cons c rest ih =>
    intro last
    by_cases h : c = '-' ∧ last = some '-'
    · rw [collapseHyphens, if_pos h]
      obtain ⟨hc, hlast⟩ := h
      subst hc; subst hlast
      exact ⟨(ih (some '-')).1, fun _ => (ih (some '-')).2 rfl⟩
    · rw [collapseHyphens, if_neg h]
      constructor
      · refine noAdjacentHyphens_cons (ih (some c)).1 ?_
        intro d hd ⟨h1, h2⟩
        subst h1; subst h2
        exact (ih (some '-')).2 rfl hd
      · intro hlast
        simp only [List.head?_cons, ne_eq, Option.some.injEq]
        intro hc
        exact h ⟨hc, hlast⟩

theorem collapseHyphens_eq_self (l : List Char) : ∀ last : Option Char,
    noAdjacentHyphens l = true →
    (∀ d, l.head? = some d → ¬(d = '-' ∧ last = some '-')) →
    collapseHyphens last l = l := by
  induction l with
  | nil => intro last _ _; rfl
  | cons c rest ih =>
    intro last hadj hhead
    rw [collapseHyphens, if_neg (fun hx => hhead c rfl hx)]
    congr 1
    refine ih (some c) (noAdjacentHyphens_tail hadj) ?_
    intro d hd ⟨h1, h2⟩
    cases rest with
    | nil => simp at hd
    | cons e rest' =>
      obtain rfl : e = d := by simpa using hd
      exact noAdjacentHyphens_head hadj ⟨by simpa using h2, h1⟩

theorem map_eq_self {f : Char → Char} {l : List Char} (h : ∀ c ∈ l, f c = c) :
    l.map f = l := by
  induction l with
  | nil => rfl
  | cons c rest ih =>
    rw [List.map_cons, h c (by simp), ih fun c hc => h c (by simp [hc])]

/-! ## Claims about `slugify` -/

/-- C2: for every input (and any behaviour of the normalization
collaborator), the output of `slugify` contains only ASCII lowercase
letters, digits, underscore and hyphen; it never contains two adjacent
hyphens; and whitespace padding at either end never changes the output
(so edge whitespace never produces an edge hyphen). -/
theorem slugify_output_valid (nfd : List Char → List Char) (s : String) :
    (∀ c ∈ (slugify nfd s).data, isSlugChar c = true) ∧
    noAdjacentHyphens (slugify nfd s).data = true ∧
    (∀ w₁ w₂ : List Char, (∀ c ∈ w₁, rustIsWhitespace c = true) →
      (∀ c ∈ w₂, rustIsWhitespace c = true) →
      slugify nfd ⟨w₁ ++ s.data ++ w₂⟩ = slugify nfd s) := by
  refine ⟨?_, ?_, ?_⟩
  · intro c hc
    have hc' := mem_collapseHyphens hc
    obtain ⟨d, hd, rfl⟩ := List.mem_map.mp hc'
    exact slugChar_of_keep (List.mem_filter.mp hd).2
  · exact (collapseHyphens_sound _ none).1
  · intro w₁ w₂ h1 h2
    have hd : (⟨w₁ ++ s.data ++ w₂⟩ : String).data = w₁ ++ s.data ++ w₂ := rfl
    simp only [slugify, slugifyChars, hd, trimChars_pad _ h1 h2]

theorem slugify_output_valid_witness :
    (∀ c ∈ (slugify nfdRef "Grand Total").data, isSlugChar c = true) ∧
    slugify nfdRef ⟨[' '] ++ "Grand Total".data ++ [' ', '\t']⟩ =
      slugify nfdRef "Grand Total" ∧
    slugify nfdRef "Grand Total" = "grand-total" :=
  ⟨(slugify_output_valid nfdRef "Grand Total").1,
   (slugify_output_valid nfdRef "Grand Total").2.2 [' '] [' ', '\t']
     (by decide) (by decide),
   by decide⟩

/-- C7: `slugify` is the identity on strings that are already valid
slugs (only lowercase ASCII alphanumerics, underscore and hyphen, no two
consecutive hyphens), given that the normalization collaborator fixes
the string (true of NFD on ASCII text). -/
theorem slugify_idempotent (nfd : List Char → List Char) (s : String)
    (hchars : ∀ c ∈ s.data, isSlugChar c = true)
    (hadj : noAdjacentHyphens s.data = true)
    (hnfd : nfd s.data = s.data) :
    slugify nfd s = s := by
  have hws : ∀ c ∈ s.data, rustIsWhitespace c = false :=
    fun c hc => ws_false_of_slug (hchars c hc)
  have htrim : trimChars s.data = s.data := trimChars_of_no_ws hws
  have hmapws :
      s.data.map (fun c => if rustIsWhitespace c then '-' else c) = s.data :=
    map_eq_self fun c hc => by simp [hws c hc]
  have hfilter : s.data.filter isKeepChar = s.data :=
    List.filter_eq_self.mpr fun c hc => keep_of_slug (hchars c hc)
  have hlower : s.data.map toAsciiLower = s.data :=
    map_eq_self fun c hc => toAsciiLower_of_not_upper (not_upper_of_slug (hchars c hc))
  have hcollapse := collapseHyphens_eq_self s.data none hadj
    (fun d _ hx => by exact absurd hx.2 (by simp))
  show (⟨slugifyChars nfd s.data⟩ : String) = s
  rw [slugifyChars, htrim, hnfd, hmapws, hfilter, hlower, hcollapse]

theorem slugify_idempotent_witness :
    slugify nfdRef "already-a-slug_01" = "already-a-slug_01" :=
  slugify_idempotent nfdRef "already-a-slug_01" (by decide) (by decide)
    (by decide)

/-- C8: the three reference examples of `slugify`: the empty string, the
whitespace/punctuation example, and accent stripping by canonical
decomposition (NFD) followed by the ASCII filter. -/
theorem slugify_examples :
    slugify nfdRef "" = "" ∧
    slugify nfdRef " Hello  World! " = "hello-world" ∧
    slugify nfdRef "ĥêlļō ŵöřľď" = "hello-world" :=
  ⟨by decide, by decide, by decide⟩

/-! ## Claims about `get_pr_stack` and `run_command` -/

/-- C4: when `cherry_pick` or `directly_based_on_master` is set,
`get_pr_stack` returns the encoding of the singleton stack
`[pull_request_number]`, and the git collaborator is never consulted:
the result is the same for any two collaborators. -/
theorem get_pr_stack_singleton (git git' : Git) (config : Config) (pr : Nat)
    (oid : Oid) (cherry_pick directly_based_on_master : Bool)
    (h : cherry_pick = true ∨ directly_based_on_master = true) :
    get_pr_stack git config pr oid cherry_pick directly_based_on_master =
      .ok (build_pr_stack_message [pr] config.owner config.repo) ∧
    get_pr_stack git config pr oid cherry_pick directly_based_on_master =
      get_pr_stack git' config pr oid cherry_pick directly_based_on_master := by
  have hcond : (cherry_pick || directly_based_on_master) = true := by
    rcases h with h | h <;> simp [h]
  constructor
  · rw [get_pr_stack, if_pos hcond]
  · rw [get_pr_stack, get_pr_stack, if_pos hcond, if_pos hcond]

theorem get_pr_stack_singleton_witness :
    get_pr_stack ⟨fun _ => .ok [3, 4]⟩ ⟨"mk1123", "spr"⟩ 7 0 true false =
      .ok (build_pr_stack_message [7] "mk1123" "spr") ∧
    get_pr_stack ⟨fun _ => .ok [3, 4]⟩ ⟨"mk1123", "spr"⟩ 7 0 true false =
      get_pr_stack ⟨fun _ => .error (Error.new "unreachable")⟩
        ⟨"mk1123", "spr"⟩ 7 0 true false :=
  get_pr_stack_singleton _ _ _ _ _ _ _ (Or.inl rfl)

/-- C5: with both flags unset, `get_pr_stack` asks the git collaborator
for the stack at the parent commit, prepends the PR number, and encodes
the result; a collaborator error is returned unchanged, with no stack
text produced. -/
theorem get_pr_stack_ancestors (git : Git) (config : Config) (pr : Nat)
    (oid : Oid) :
    (∀ e, git.parse_pr_stack_from_commit oid = .error e →
      get_pr_stack git config pr oid false false = .error e) ∧
    (∀ st, git.parse_pr_stack_from_commit oid = .ok st →
      get_pr_stack git config pr oid false false =
        .ok (build_pr_stack_message (pr :: st) config.owner config.repo)) := by
  constructor
  · intro e he
    rw [get_pr_stack, if_neg (by simp), he]
  · intro st hst
    rw [get_pr_stack, if_neg (by simp), hst]

theorem get_pr_stack_ancestors_witness :
    get_pr_stack ⟨fun _ => .error (Error.new "broken stack")⟩ ⟨"o", "r"⟩
        1 0 false false = .error (Error.new "broken stack") ∧
    get_pr_stack ⟨fun _ => .ok [2, 3]⟩ ⟨"o", "r"⟩ 1 0 false false =
      .ok (build_pr_stack_message [1, 2, 3] "o" "r") :=
  ⟨(get_pr_stack_ancestors ⟨fun _ => .error (Error.new "broken stack")⟩
      ⟨"o", "r"⟩ 1 0).1 _ rfl,
   (get_pr_stack_ancestors ⟨fun _ => .ok [2, 3]⟩ ⟨"o", "r"⟩ 1 0).2 [2, 3] rfl⟩

/-- C6: `run_command` fails exactly when the spawn fails, the wait
fails, or the process exits unsuccessfully; on a non-zero exit it writes
exactly the captured standard-error bytes to the diagnostic stream and
returns the generic "command failed" error; on success it returns `ok`
and writes nothing. -/
theorem run_command_spec (Child : Type) (spawn : Except Error Child)
    (wait : Child → Except Error CmdOutput) :
    (∀ e, spawn = .error e → run_command Child spawn wait = ([], .error e)) ∧
    (∀ c e, spawn = .ok c → wait c = .error e →
      run_command Child spawn wait = ([], .error e)) ∧
    (∀ c out, spawn = .ok c → wait c = .ok out → out.success = true →
      run_command Child spawn wait = ([], .ok ())) ∧
    (∀ c out, spawn = .ok c → wait c = .ok out → out.success = false →
      run_command Child spawn wait =
        (out.stderr, .error (Error.new "command failed"))) ∧
    ((run_command Child spawn wait).2 = .ok () ↔
      ∃ c out, spawn = .ok c ∧ wait c = .ok out ∧ out.success = true) := by
  refine ⟨?_, ?_, ?_, ?_, ?_⟩
  · intro e he; subst he; rfl
  · intro c e hs hw; subst hs; simp [run_command, hw]
  · intro c out hs hw hsucc; subst hs; simp [run_command, hw, hsucc]
  · intro c out hs hw hsucc; subst hs; simp [run_command, hw, hsucc]
  · rcases spawn with e | c
    · simp [run_command]
    · rcases hw : wait c with e | out
      · simp [run_command, hw]
      · by_cases hsucc : out.success = true
        · simp [run_command, hw, hsucc]
        · simp [run_command, hw, hsucc]

/-! ## Tokenization lemmas for `parse_pr_stack_list` -/

theorem firstToken_eq (l : List Char) :
    firstWhitespaceToken l =
      match l.dropWhile rustIsWhitespace with
      | [] => none
      | c :: rest => some ((c :: rest).takeWhile fun x => !rustIsWhitespace x) :=
  rfl

theorem takeWhile_concat_neg {p : Char → Bool} (x : List Char) {c : Char}
    (hc : p c = false) : (x ++ [c]).takeWhile p = x.takeWhile p := by
  induction x with
  | nil => simp [List.takeWhile_cons, hc]
  | cons a x ih =>
    rw [List.cons_append, List.takeWhile_cons, List.takeWhile_cons]
    by_cases ha : p a = true
    · rw [if_pos ha, if_pos ha, ih]
    · rw [if_neg ha, if_neg ha]

theorem takeWhile_append_stop {p : Char → Bool} {tok : List Char}
    (c : Char) (rest : List Char) (htok : ∀ x ∈ tok, p x = true)
    (hc : p c = false) : (tok ++ c :: rest).takeWhile p = tok := by
  induction tok with
  | nil => simp [List.takeWhile_cons, hc]
  | cons a tok ih =>
    rw [List.cons_append, List.takeWhile_cons, if_pos (htok a (by simp)),
      ih fun x hx => htok x (by simp [hx])]

theorem firstToken_cons_ws {a : Char} (x : List Char)
    (ha : rustIsWhitespace a = true) :
    firstWhitespaceToken (a :: x) = firstWhitespaceToken x := by
  rw [firstToken_eq, firstToken_eq, List.dropWhile_cons, if_pos ha]

theorem firstToken_cons_nonws {a : Char} (x : List Char)
    (ha : rustIsWhitespace a = false) :
    firstWhitespaceToken (a :: x) =
      some ((a :: x).takeWhile fun u => !rustIsWhitespace u) := by
  rw [firstToken_eq, List.dropWhile_cons, if_neg (by simp [ha])]

theorem firstToken_of_all_nonws {l : List Char} (hne : l ≠ [])
    (h : ∀ c ∈ l, rustIsWhitespace c = false) :
    firstWhitespaceToken l = some l := by
  cases l with
  | nil => exact absurd rfl hne
  | cons c rest =>
    rw [firstToken_cons_nonws _ (h c (by simp))]
    exact congrArg some (takeWhile_of_all fun x hx => by simp [h x hx])

theorem firstToken_token {tok : List Char} (c : Char) (rest : List Char)
    (hne : tok ≠ []) (htok : ∀ x ∈ tok, rustIsWhitespace x = false)
    (hc : rustIsWhitespace c = true) :
    firstWhitespaceToken (tok ++ c :: rest) = some tok := by
  cases tok with
  | nil => exact absurd rfl hne
  | cons a tok' =>
    rw [List.cons_append, firstToken_cons_nonws _ (htok a (by simp))]
    refine congrArg some ?_
    have : (a :: (tok' ++ c :: rest)) = (a :: tok') ++ c :: rest := rfl
    rw [this]
    exact takeWhile_append_stop c rest (fun x hx => by simp [htok x hx])
      (by simp [hc])

theorem firstToken_concat_ws (m : List Char) {c : Char}
    (hc : rustIsWhitespace c = true) :
    firstWhitespaceToken (m ++ [c]) = firstWhitespaceToken m := by
  induction m with
  | nil =>
    rw [List.nil_append, firstToken_eq, firstToken_eq, List.dropWhile_cons,
      if_pos hc]
  | cons a m' ih =>
    by_cases ha : rustIsWhitespace a = true
    · rw [List.cons_append, firstToken_cons_ws _ ha, firstToken_cons_ws _ ha, ih]
    · have hna : rustIsWhitespace a = false := by simpa using ha
      rw [List.cons_append, firstToken_cons_nonws _ hna,
        firstToken_cons_nonws _ hna]
      refine congrArg some ?_
      rw [List.takeWhile_cons, List.takeWhile_cons]
      rw [takeWhile_concat_neg m' (by simp [hc])]

theorem extract_eq (line : List Char) :
    extractPrNumber line =
      match firstWhitespaceToken line with
      | none => none
      | some url => parseU64 ((url.splitOn '/').getLastD []) :=
  rfl

theorem extract_of_token {tok : List Char} (c : Char) (rest : List Char)
    (hne : tok ≠ []) (htok : ∀ x ∈ tok, rustIsWhitespace x = false)
    (hc : rustIsWhitespace c = true) :
    extractPrNumber (tok ++ c :: rest) = extractPrNumber tok := by
  rw [extract_eq, extract_eq, firstToken_token c rest hne htok hc,
    firstToken_of_all_nonws hne htok]

theorem extract_stripCR (l : List Char) :
    extractPrNumber (stripTrailingCR l) = extractPrNumber l := by
  rw [stripTrailingCR]
  by_cases h : l.getLast? = some '\r'
  · rw [if_pos h]
    induction l using List.reverseRecOn with
    | nil => simp at h
    | append_singleton init last _ =>
      obtain rfl : last = '\r' := by simpa using h
      rw [List.dropLast_concat, extract_eq, extract_eq,
        firstToken_concat_ws init (by decide)]
  · rw [if_neg h]

/-! ## `splitOn` lemmas -/

theorem splitOn_no_sep {sep : Char} {l : List Char} (h : ∀ c ∈ l, c ≠ sep) :
    l.splitOn sep = [l] := by
  rw [List.splitOn]
  exact List.splitOnP_eq_single _ _ fun x hx => by simp [h x hx]

theorem two_le_splitOnP {p : Char → Bool} {l : List Char}
    (h : ∃ x ∈ l, p x = true) : 2 ≤ (l.splitOnP p).length := by
  induction l with
  | nil => simp at h
  | cons c rest ih =>
    rw [List.splitOnP_cons]
    by_cases hc : p c = true
    · rw [if_pos hc]
      have hpos : 0 < (rest.splitOnP p).length :=
        List.length_pos.mpr (List.splitOnP_ne_nil _ rest)
      simp only [List.length_cons]
      omega
    · rw [if_neg hc]
      rw [List.length_modifyHead]
      refine ih ?_
      obtain ⟨x, hx, hpx⟩ := h
      rcases List.mem_cons.mp hx with rfl | hx
      · exact absurd hpx hc
      · exact ⟨x, hx, hpx⟩

theorem getLastD_of_ne_nil {α : Type} {l : List α} (hne : l ≠ []) (d d' : α) :
    l.getLastD d = l.getLastD d' := by
  cases l with
  | nil => exact absurd rfl hne
  | cons c rest => rw [List.getLastD_cons, List.getLastD_cons]

theorem getLastD_modifyHead {α : Type} (f : α → α) {l : List α}
    (h : 2 ≤ l.length) (d : α) :
    (l.modifyHead f).getLastD d = l.getLastD d := by
  match l with
  | [] => simp at h
  | [a] => simp at h
  | a :: b :: t =>
    show (f a :: b :: t).getLastD d = (a :: b :: t).getLastD d
    rw [List.getLastD_cons]
    conv_rhs => rw [List.getLastD_cons]
    exact getLastD_of_ne_nil (List.cons_ne_nil b t) (f a) a

theorem getLastD_splitOn_append {sep : Char} (a : List Char) {b : List Char}
    (hb : ∀ c ∈ b, c ≠ sep) :
    ((a ++ sep :: b).splitOn sep).getLastD [] = b := by
  induction a with
  | nil =>
    rw [List.nil_append, List.splitOn, List.splitOnP_cons, if_pos (by simp),
      List.getLastD_cons]
    have hsingle : b.splitOnP (· == sep) = [b] :=
      List.splitOnP_eq_single _ _ fun x hx => by simp [hb x hx]
    rw [hsingle]
    rfl
  | cons c a' ih =>
    rw [List.splitOn] at ih
    rw [List.cons_append, List.splitOn, List.splitOnP_cons]
    by_cases hc : (c == sep) = true
    · rw [if_pos hc, List.getLastD_cons]
      exact ih
    · rw [if_neg hc]
      rw [getLastD_modifyHead _ (two_le_splitOnP ⟨sep, by simp, by simp⟩)]
      exact ih

/-! ## Line-splitting lemmas -/

theorem filterMap_extract_rustLines (ls : List (List Char)) (hne : ls ≠ [])
    (h : ∀ l ∈ ls, '\n' ∉ l) :
    (rustLines (List.intercalate ['\n'] ls)).filterMap extractPrNumber =
      ls.filterMap extractPrNumber := by
  have hsplit : (List.intercalate ['\n'] ls).splitOn '\n' = ls :=
    List.splitOn_intercalate ls '\n' h hne
  rw [rustLines]
  simp only [hsplit]
  have hnone : extractPrNumber [] = none := rfl
  by_cases hlast : ls.getLastD [] = []
  · rw [if_pos hlast]
    conv_rhs => rw [← List.dropLast_append_getLast hne]
    rw [List.filterMap_append, List.filterMap_map]
    have hcongr :
        List.filterMap (extractPrNumber ∘ stripTrailingCR) ls.dropLast =
          List.filterMap extractPrNumber ls.dropLast :=
      List.filterMap_congr fun x _ => extract_stripCR x
    rw [hcongr]
    have hg : ls.getLast hne = [] := by
      rw [List.getLastD_eq_getLast?, List.getLast?_eq_getLast ls hne] at hlast
      exact hlast
    rw [hg]
    simp [hnone]
  · rw [if_neg hlast]
    conv_rhs => rw [← List.dropLast_append_getLast hne]
    rw [List.filterMap_append, List.filterMap_append, List.filterMap_map]
    have hcongr :
        List.filterMap (extractPrNumber ∘ stripTrailingCR) ls.dropLast =
          List.filterMap extractPrNumber ls.dropLast :=
      List.filterMap_congr fun x _ => extract_stripCR x
    rw [hcongr]
    have hg : ls.getLastD [] = ls.getLast hne := by
      rw [List.getLastD_eq_getLast?, List.getLast?_eq_getLast ls hne]
      rfl
    rw [hg]

theorem parse_intercalate (ls : List (List Char)) (h : ∀ l ∈ ls, '\n' ∉ l) :
    parse_pr_stack_list ⟨List.intercalate ['\n'] ls⟩ =
      ls.filterMap extractPrNumber := by
  cases hls : ls with
  | nil => rfl
  | cons l₀ rest =>
    rw [← hls]
    rw [parse_pr_stack_list]
    exact filterMap_extract_rustLines ls (by rw [hls]; simp) h

/-! ## Decimal digit lemmas -/

theorem digitChar_isDigit (d : Nat) : isAsciiDigit (digitChar d) = true := by
  rcases d with _ | _ | _ | _ | _ | _ | _ | _ | _ | d <;> rfl

theorem digitVal_digitChar {d : Nat} (h : d < 10) :
    digitVal (digitChar d) = d := by
  interval_cases d <;> rfl

theorem digitsToNat_concat (a : List Char) (c : Char) :
    digitsToNat (a ++ [c]) = digitsToNat a * 10 + digitVal c := by
  rw [digitsToNat, digitsToNat, List.foldl_append]
  rfl

theorem natDigits_spec (n : Nat) :
    natDigits n ≠ [] ∧ (∀ c ∈ natDigits n, isAsciiDigit c = true) ∧
    digitsToNat (natDigits n) = n := by
  induction n using natDigits.induct with
  | case1 n h =>
    rw [natDigits, dif_pos h]
    refine ⟨by simp, ?_, ?_⟩
    · intro c hc
      obtain rfl : c = digitChar n := by simpa using hc
      exact digitChar_isDigit n
    · show 0 * 10 + digitVal (digitChar n) = n
      rw [digitVal_digitChar h]
      omega
  | case2 n h ih =>
    rw [natDigits, dif_neg h]
    obtain ⟨ihne, ihdig, ihval⟩ := ih
    refine ⟨by simp, ?_, ?_⟩
    · intro c hc
      rcases List.mem_append.mp hc with hc | hc
      · exact ihdig c hc
      · obtain rfl : c = digitChar (n % 10) := by simpa using hc
        exact digitChar_isDigit _
    · rw [digitsToNat_concat, ihval, digitVal_digitChar (Nat.mod_lt _ (by omega))]
      omega

theorem digit_ne {c x : Char} (h : isAsciiDigit c = true)
    (hx : isAsciiDigit x = false) : c ≠ x := by
  intro he
  subst he
  rw [h] at hx
  cases hx

theorem ws_false_of_digit {c : Char} (h : isAsciiDigit c = true) :
    rustIsWhitespace c = false := by
  cases hws : rustIsWhitespace c with
  | false => rfl
  | true =>
    exfalso
    have h1 := ws_toNat hws
    simp only [isAsciiDigit, Bool.and_eq_true, decide_eq_true_eq] at h
    omega

theorem parseU64_natDigits {n : Nat} (h : n < 2 ^ 64) :
    parseU64 (natDigits n) = some n := by
  obtain ⟨hne, hdig, hval⟩ := natDigits_spec n
  cases hd : natDigits n with
  | nil => exact absurd hd hne
  | cons c rest =>
    have hcdig : isAsciiDigit c = true := hdig c (by rw [hd]; simp)
    have hall : (c :: rest).all isAsciiDigit = true := by
      rw [List.all_eq_true]
      intro x hx
      exact hdig x (by rw [hd]; exact hx)
    rw [parseU64, if_neg (digit_ne hcdig (by decide)), parseDigits,
      if_pos ⟨by simp, hall⟩, ← hd, hval, if_pos h]

/-! ## PR URL lemmas -/

theorem prUrl_ne_nil (owner repo : String) (n : Nat) :
    prUrl owner repo n ≠ [] := by
  rw [prUrl]
  have : "https://github.com/".data = 'h' :: "ttps://github.com/".data := rfl
  rw [this]
  simp

theorem prUrl_no_ws {owner repo : String} (n : Nat)
    (how : ∀ c ∈ owner.data, rustIsWhitespace c = false)
    (hrw : ∀ c ∈ repo.data, rustIsWhitespace c = false) :
    ∀ c ∈ prUrl owner repo n, rustIsWhitespace c = false := by
  intro c hc
  rw [prUrl] at hc
  simp only [List.append_assoc, List.mem_append] at hc
  have hfix1 : ∀ c ∈ "https://github.com/".data, rustIsWhitespace c = false := by
    decide
  have hfix2 : ∀ c ∈ "/".data, rustIsWhitespace c = false := by decide
  have hfix3 : ∀ c ∈ "/pull/".data, rustIsWhitespace c = false := by decide
  rcases hc with hc | hc | hc | hc | hc | hc
  · exact hfix1 c hc
  · exact how c hc
  · exact hfix2 c hc
  · exact hrw c hc
  · exact hfix3 c hc
  · exact ws_false_of_digit ((natDigits_spec n).2.1 c hc)

theorem no_newline_of_no_ws {l : List Char}
    (h : ∀ c ∈ l, rustIsWhitespace c = false) : '\n' ∉ l := by
  intro hmem
  have := h '\n' hmem
  cases this

theorem extract_of_some_token {l tok : List Char}
    (h : firstWhitespaceToken l = some tok) :
    extractPrNumber l = parseU64 ((tok.splitOn '/').getLastD []) := by
  rw [extract_eq, h]

theorem extract_prUrl {owner repo : String} {n : Nat} (h64 : n < 2 ^ 64)
    (how : ∀ c ∈ owner.data, rustIsWhitespace c = false)
    (hrw : ∀ c ∈ repo.data, rustIsWhitespace c = false) :
    extractPrNumber (prUrl owner repo n) = some n := by
  rw [extract_of_some_token
    (firstToken_of_all_nonws (prUrl_ne_nil owner repo n) (prUrl_no_ws n how hrw))]
  have hshape : prUrl owner repo n =
      ("https://github.com/".data ++ owner.data ++ "/".data ++ repo.data ++
        "/pull".data) ++ '/' :: natDigits n := by
    rw [prUrl]
    have hp : "/pull/".data = "/pull".data ++ ['/'] := rfl
    rw [hp]
    simp [List.append_assoc]
  rw [hshape,
    getLastD_splitOn_append _
      (fun c hc => digit_ne ((natDigits_spec n).2.1 c hc) (by decide)),
    parseU64_natDigits h64]

theorem filterMap_extract_prUrls {owner repo : String}
    (how : ∀ c ∈ owner.data, rustIsWhitespace c = false)
    (hrw : ∀ c ∈ repo.data, rustIsWhitespace c = false) (rest : List Nat)
    (hb : ∀ k ∈ rest, k < 2 ^ 64) :
    (rest.map (prUrl owner repo)).filterMap extractPrNumber = rest := by
  induction rest with
  | nil => rfl
  | cons k rest' ih =>
    rw [List.map_cons, List.filterMap_cons, extract_prUrl (hb k (by simp)) how hrw]
    rw [ih fun k hk => hb k (by simp [hk])]

/-! ## Claims about the PR-stack codec -/

/-- C3: `parse_pr_stack_list` works line by line in order; each line
contributes the parse of the segment after the last `'/'` of its first
whitespace-delimited token, lines without a parseable number contribute
nothing (`filterMap`), anything after the first token never changes the
extracted number, and the segment after the last `'/'` is exactly the
trailing `'/'`-free suffix. -/
theorem parse_pr_stack_list_spec :
    (∀ ls : List (List Char), (∀ l ∈ ls, '\n' ∉ l) →
      parse_pr_stack_list ⟨List.intercalate ['\n'] ls⟩ =
        ls.filterMap extractPrNumber) ∧
    (∀ (tok : List Char) (c : Char) (rest : List Char), tok ≠ [] →
      (∀ x ∈ tok, rustIsWhitespace x = false) → rustIsWhitespace c = true →
      extractPrNumber (tok ++ c :: rest) = extractPrNumber tok) ∧
    (∀ pre d : List Char, (∀ x ∈ d, x ≠ '/') →
      ((pre ++ '/' :: d).splitOn '/').getLastD [] = d) :=
  ⟨parse_intercalate,
   fun _ c rest hne htok hc => extract_of_token c rest hne htok hc,
   fun pre _ hd => getLastD_splitOn_append pre hd⟩

theorem parse_pr_stack_list_spec_witness :
    parse_pr_stack_list
        ⟨List.intercalate ['\n']
          ["https://github.com/mk1123/spr/pull/7 (extra)".data,
           "no number here".data, "pull/9 [note]".data]⟩ =
      ["https://github.com/mk1123/spr/pull/7 (extra)".data,
       "no number here".data, "pull/9 [note]".data].filterMap extractPrNumber ∧
    ["https://github.com/mk1123/spr/pull/7 (extra)".data,
     "no number here".data, "pull/9 [note]".data].filterMap extractPrNumber =
      [7, 9] :=
  ⟨parse_pr_stack_list_spec.1 _ (by decide), by decide⟩

/-- C10: `parse_pr_stack_list` does not require URLs: a line that is just
a number, with no `'/'` anywhere, decodes to that number. -/
theorem parse_pr_stack_list_plain_number :
    '/' ∉ "42".data ∧ parse_pr_stack_list "42" = [42] :=
  ⟨by decide, by decide⟩

/-- C1: decoding the text produced by `build_pr_stack_message` recovers
the encoded stack exactly, for any non-empty stack of positive `u64`
numbers and whitespace-free owner and repo. -/
theorem pr_stack_roundtrip (S : List Nat) (owner repo : String)
    (hS : S ≠ []) (hpos : ∀ n ∈ S, 0 < n) (hbound : ∀ n ∈ S, n < 2 ^ 64)
    (how : ∀ c ∈ owner.data, rustIsWhitespace c = false)
    (hrw : ∀ c ∈ repo.data, rustIsWhitespace c = false) :
    parse_pr_stack_list (build_pr_stack_message S owner repo) = S := by
  cases S with
  | nil => exact absurd rfl hS
  | cons first rest =>
    rw [build_pr_stack_message]
    have hlines : ∀ l ∈ (prUrl owner repo first ++ " <-- (current PR)".data) ::
        rest.map (prUrl owner repo), '\n' ∉ l := by
      intro l hl
      rcases List.mem_cons.mp hl with rfl | hl
      · intro hmem
        rcases List.mem_append.mp hmem with hmem | hmem
        · exact absurd (prUrl_no_ws first how hrw '\n' hmem) (by decide)
        · revert hmem; decide
      · obtain ⟨k, _, rfl⟩ := List.mem_map.mp hl
        exact no_newline_of_no_ws (prUrl_no_ws k how hrw)
    rw [parse_intercalate _ hlines, List.filterMap_cons]
    have hann : prUrl owner repo first ++ " <-- (current PR)".data =
        prUrl owner repo first ++ ' ' :: "<-- (current PR)".data := rfl
    rw [hann, extract_of_token _ _ (prUrl_ne_nil owner repo first)
      (prUrl_no_ws first how hrw) (by decide),
      extract_prUrl (hbound first (by simp)) how hrw,
      filterMap_extract_prUrls how hrw rest fun k hk => hbound k (by simp [hk])]

theorem pr_stack_roundtrip_witness :
    parse_pr_stack_list (build_pr_stack_message [1, 2, 3] "mk1123" "spr") =
      [1, 2, 3] :=
  pr_stack_roundtrip [1, 2, 3] "mk1123" "spr" (by decide) (by decide)
    (by decide) (by decide) (by decide)

theorem removeParens_cons (c : Char) (rest : List Char) :
    removeParens (c :: rest) =
      if c = '(' && hasClose rest then ',' :: skipClose rest
      else c :: removeParens rest := rfl

theorem skipClose_cons (c : Char) (rest : List Char) :
    skipClose (c :: rest) =
      if c = ')' then removeParens rest else skipClose rest := rfl

/-! ## Trim idempotence -/

theorem dropWhile_rdropWhile_comm (p : Char → Bool) (m : List Char) :
    List.dropWhile p (List.rdropWhile p m) =
      List.rdropWhile p (List.dropWhile p m) := by
  induction m using List.reverseRecOn with
  | nil => rfl
  | append_singleton m' a ih =>
    by_cases ha : p a = true
    · rw [List.rdropWhile_concat_pos _ _ _ ha, ih]
      by_cases h : List.dropWhile p m' = []
      · rw [h, dropWhile_all_append _ (List.dropWhile_eq_nil_iff.mp h)]
        simp [List.dropWhile_cons, ha]
      · rw [dropWhile_append_of_ne_nil _ h,
          List.rdropWhile_concat_pos _ _ _ ha]
    · rw [List.rdropWhile_concat_neg _ _ _ ha]
      have hna : p a = false := by simpa using ha
      by_cases h : List.dropWhile p m' = []
      · rw [dropWhile_all_append _ (List.dropWhile_eq_nil_iff.mp h)]
        simp [List.dropWhile_cons, hna, List.rdropWhile_singleton]
      · rw [dropWhile_append_of_ne_nil _ h,
          List.rdropWhile_concat_neg _ _ _ ha]

theorem trimChars_idem (l : List Char) : trimChars (trimChars l) = trimChars l := by
  rw [trimChars, trimChars, dropWhile_rdropWhile_comm,
    List.dropWhile_idempotent, List.rdropWhile_idempotent]

/-! ## `parse_name_list` lemmas -/

theorem parse_name_list_entry {text e : String}
    (he : e ∈ parse_name_list text) :
    e.data ≠ [] ∧ trimChars e.data = e.data ∧
      ¬(∀ c ∈ e.data, rustIsWhitespace c = true) := by
  rw [parse_name_list] at he
  obtain ⟨l, hl, rfl⟩ := List.mem_map.mp he
  obtain ⟨hmem, hbool⟩ := List.mem_filter.mp hl
  obtain ⟨x, _, rfl⟩ := List.mem_map.mp hmem
  have hne : trimChars x ≠ [] := by simpa using hbool
  have htrim : trimChars (trimChars x) = trimChars x := trimChars_idem x
  refine ⟨hne, htrim, ?_⟩
  intro hall
  exact hne (htrim ▸ trimChars_of_all_ws hall)

theorem hasClose_of_inner {inner rest : List Char}
    (h : ∀ x ∈ inner, x ≠ ')' ∧ x ≠ '\n') :
    hasClose (inner ++ ')' :: rest) = true := by
  induction inner with
  | nil => rfl
  | cons a inner ih =>
    rw [List.cons_append, hasClose, if_neg (h a (by simp)).1,
      if_neg (h a (by simp)).2]
    exact ih fun x hx => h x (by simp [hx])

theorem skipClose_of_inner {inner rest : List Char}
    (h : ∀ x ∈ inner, x ≠ ')' ∧ x ≠ '\n') :
    skipClose (inner ++ ')' :: rest) = removeParens rest := by
  induction inner with
  | nil => rw [List.nil_append, skipClose, if_pos rfl]
  | cons a inner ih =>
    rw [List.cons_append, skipClose_cons, if_neg (h a (by simp)).1]
    exact ih fun x hx => h x (by simp [hx])

theorem removeParens_filler {l : List Char} (h : FillerOnly l) :
    ∀ c ∈ removeParens l, c = ',' ∨ rustIsWhitespace c = true := by
  induction h with
  | nil => intro c hc; simp [removeParens] at hc
  | comma hrest ih =>
    intro c hc
    rw [removeParens_cons, if_neg (by simp)] at hc
    rcases List.mem_cons.mp hc with rfl | hc
    · exact Or.inl rfl
    · exact ih c hc
  | white hw hrest ih =>
    intro c hc
    rename_i c₀ rest
    have hpar : ¬c₀ = '(' := by
      intro he
      rw [he] at hw
      cases hw
    rw [removeParens_cons, if_neg (by simp [hpar])] at hc
    rcases List.mem_cons.mp hc with rfl | hc
    · exact Or.inr hw
    · exact ih c hc
  | paren inner hinner hrest ih =>
    intro c hc
    rw [List.cons_append, removeParens_cons,
      if_pos (by simp [hasClose_of_inner hinner]),
      skipClose_of_inner hinner] at hc
    rcases List.mem_cons.mp hc with rfl | hc
    · exact Or.inl rfl
    · exact ih c hc

theorem splitOn_comma_pieces {l : List Char}
    (h : ∀ c ∈ l, c = ',' ∨ rustIsWhitespace c = true) :
    ∀ piece ∈ l.splitOn ',', ∀ c ∈ piece, rustIsWhitespace c = true := by
  induction l with
  | nil =>
    intro piece hp c hc
    obtain rfl : piece = [] := by simpa using hp
    simp at hc
  | cons a l ih =>
    have htail : ∀ c ∈ l, c = ',' ∨ rustIsWhitespace c = true :=
      fun c hc => h c (by simp [hc])
    intro piece hp c hc
    rw [List.splitOn, List.splitOnP_cons] at hp
    by_cases ha : (a == ',') = true
    · rw [if_pos ha] at hp
      rcases List.mem_cons.mp hp with rfl | hp
      · simp at hc
      · exact ih htail piece (by rw [List.splitOn]; exact hp) c hc
    · have haws : rustIsWhitespace a = true := by
        rcases h a (by simp) with h' | h'
        · exact absurd (by simp [h']) ha
        · exact h'
      rw [if_neg ha] at hp
      obtain ⟨h₀, t, hsp⟩ : ∃ h₀ t, l.splitOnP (· == ',') = h₀ :: t := by
        cases hq : l.splitOnP (· == ',') with
        | nil => exact absurd hq (List.splitOnP_ne_nil _ l)
        | cons x y => exact ⟨x, y, rfl⟩
      rw [hsp] at hp
      rcases List.mem_cons.mp hp with rfl | hp
      · rcases List.mem_cons.mp hc with rfl | hc
        · exact haws
        · exact ih htail h₀ (by rw [List.splitOn, hsp]; simp) c hc
      · exact ih htail piece (by rw [List.splitOn, hsp]; simp [hp]) c hc

theorem parse_name_list_filler {text : String} (h : FillerOnly text.data) :
    parse_name_list text = [] := by
  rw [parse_name_list]
  suffices hX : ((((removeParens text.data).splitOn ',').map trimChars).filter
      (fun l => !l.isEmpty)) = [] by
    rw [hX]
    rfl
  rw [List.filter_eq_nil_iff]
  intro l hl
  obtain ⟨piece, hp, rfl⟩ := List.mem_map.mp hl
  have hnil : trimChars piece = [] :=
    trimChars_of_all_ws (splitOn_comma_pieces (removeParens_filler h) piece hp)
  simp [hnil]

/-! ## Claim about `parse_name_list` -/

/-- C9: every entry produced by `parse_name_list` is non-empty, equal to
its own trim, and not whitespace-only; and input consisting only of
whitespace, commas, and parenthesized content yields the empty list. -/
theorem parse_name_list_spec (text : String) :
    (∀ e ∈ parse_name_list text, e.data ≠ [] ∧ trimChars e.data = e.data ∧
      ¬(∀ c ∈ e.data, rustIsWhitespace c = true)) ∧
    (FillerOnly text.data → parse_name_list text = []) :=
  ⟨fun _ he => parse_name_list_entry he, parse_name_list_filler⟩

theorem parse_name_list_spec_witness :
    parse_name_list " (note), ,\t" = [] :=
  (parse_name_list_spec " (note), ,\t").2
    (FillerOnly.white (by decide)
      (FillerOnly.paren ['n', 'o', 't', 'e'] (by decide)
        (FillerOnly.comma (FillerOnly.white (by decide)
          (FillerOnly.comma (FillerOnly.white (by decide) FillerOnly.nil))))))

theorem run_command_spec_witness :
    run_command Unit (.ok ()) (fun _ => .ok ⟨false, [101, 114, 114]⟩) =
      ([101, 114, 114], .error (Error.new "command failed")) ∧
    run_command Unit (.ok ()) (fun _ => .ok ⟨true, []⟩) = ([], .ok ()) :=
  ⟨(run_command_spec Unit _ _).2.2.2.1 () ⟨false, [101, 114, 114]⟩ rfl rfl rfl,
   (run_command_spec Unit _ _).2.2.1 () ⟨true, []⟩ rfl rfl rfl⟩

end Spr
